import Mathlib

/-!
Verification of the goship deployment dashboard against its specification.

The handlers in `main.go` (path matching, project/environment name extraction,
GitHub-client construction, startup) are embedded directly from the source.
The distributed lock manager, remote execution engine and notification hub are
referenced from `main.go` but their code is not part of this tree; they are
modelled from the specification, as marked on each definition.
-/

namespace Goship

/-! ## Distributed lock manager

Modelled from the spec: the lock manager behind `lock.NewLock` / `lock.NewUnlock`
(handlers/lock, not in this tree).  A lock entry carries holder identity,
acquisition timestamp and TTL; the coordination store offers conditional create
(create if absent or expired) and conditional delete (delete if held by the
given holder).  Time is a `Nat` instant. -/

structure Lock where
  holder : String
  acquiredAt : Nat
  ttl : Nat
deriving DecidableEq, Repr

/-- A lock entry is expired at instant `now` once its TTL has elapsed. -/
def Lock.expired (l : Lock) (now : Nat) : Bool :=
  decide (l.acquiredAt + l.ttl ≤ now)

/-- The coordination store: an association from lock keys to lock entries. -/
abbrev LockStore := List (String × Lock)

/-- Look up the live entry for a key. -/
def LockStore.get (st : LockStore) (k : String) : Option Lock :=
  st.lookup k

/-- Remove every entry for a key (conditional delete, after the condition holds). -/
def LockStore.remove (st : LockStore) (k : String) : LockStore :=
  st.filter (fun p => decide (p.1 ≠ k))

/-- Install a fresh entry for a key, replacing any stale one. -/
def LockStore.put (st : LockStore) (k : String) (l : Lock) : LockStore :=
  (k, l) :: st.remove k

inductive AcquireResult where
  | granted
  | conflict (currentHolder : String) (acquiredAt : Nat)
deriving DecidableEq, Repr

/-- Modelled from the spec: `acquire(key, holder, ttl)` atomically creates the
lock entry for `key` only if none exists or the existing one has expired;
on conflict it returns the existing holder's identity and acquisition time. -/
def acquire (st : LockStore) (k holder : String) (ttl now : Nat) :
    AcquireResult × LockStore :=
  match st.get k with
  | none => (.granted, st.put k ⟨holder, now, ttl⟩)
  | some l =>
      if l.expired now then (.granted, st.put k ⟨holder, now, ttl⟩)
      else (.conflict l.holder l.acquiredAt, st)

inductive ReleaseResult where
  | released
  | notOwner
deriving DecidableEq, Repr

/-- Modelled from the spec: `release(key, holder)` deletes the lock entry only
if it is currently held by `holder`; otherwise a `NotOwner` no-op. -/
def release (st : LockStore) (k holder : String) : ReleaseResult × LockStore :=
  match st.get k with
  | none => (.notOwner, st)
  | some l =>
      if l.holder = holder then (.released, st.remove k)
      else (.notOwner, st)

/-- A batch of acquire requests `(holder, time)` against one key, applied in
order, collecting each request's result. -/
def acquireAll (st : LockStore) (k : String) (ttl : Nat) :
    List (String × Nat) → List AcquireResult × LockStore
  | [] => ([], st)
  | (h, t) :: rest =>
      let (r, st') := acquire st k h ttl t
      let (rs, st'') := acquireAll st' k ttl rest
      (r :: rs, st'')

/-- How many requests in a batch were granted. -/
def countGranted (rs : List AcquireResult) : Nat :=
  rs.countP (fun r => decide (r = .granted))

/-! ## Deploy attempt with scoped lock acquisition

Modelled from the spec: the deploy flow acquires the environment lock, runs the
execution engine, and releases the lock on every exit path of the attempt
(success, execution failure, panic/crash recovery, timeout). -/

inductive ExecOutcome where
  | success
  | execFailure
  | panicked
  | timedOut
deriving DecidableEq, Repr

inductive DeployAttemptResult where
  | lockConflict (currentHolder : String) (acquiredAt : Nat)
  | completed (outcome : ExecOutcome)
deriving DecidableEq, Repr

/-- Modelled from the spec: one deploy attempt under scoped acquisition.
`outcome` is how the execution engine terminates once the lock is held; the
release is structural, so it runs whatever the outcome is. -/
def deployAttempt (st : LockStore) (k holder : String) (ttl now : Nat)
    (outcome : ExecOutcome) : DeployAttemptResult × LockStore :=
  match acquire st k holder ttl now with
  | (.conflict h t, st') => (.lockConflict h t, st')
  | (.granted, st') =>
      let (_, st'') := release st' k holder
      (.completed outcome, st'')

/-! ## Remote execution engine

Modelled from the spec: `run(environment, revision, requester)` launches one
independent execution unit per host; a host's unit either succeeds or fails
(execution failure, connection failure and timeout all land as a failed
`HostResult`); units do not affect each other; the aggregate outcome is
`failed` if any host failed and `succeeded` only if all succeeded. -/

inductive HostStatus where
  | pending
  | running
  | succeeded
  | failed
deriving DecidableEq, Repr

/-- One host of an environment together with the behaviour its deploy
procedure will exhibit (`fails = true`: non-zero exit, connection failure or
timeout). -/
structure HostSpec where
  name : String
  fails : Bool
deriving DecidableEq, Repr

structure HostResult where
  host : String
  status : HostStatus
deriving DecidableEq, Repr

/-- Modelled from the spec: the execution unit of a single host, independent of
every other host. -/
def runHost (h : HostSpec) : HostResult :=
  ⟨h.name, if h.fails then .failed else .succeeded⟩

/-- Modelled from the spec: run the deploy procedure on every host of the
environment; no host is cancelled because of another. -/
def runEnvironment (hosts : List HostSpec) : List HostResult :=
  hosts.map runHost

inductive SessionOutcome where
  | succeeded
  | failed
deriving DecidableEq, Repr

/-- Modelled from the spec: aggregate outcome is `failed` if any host failed,
`succeeded` only if all succeeded. -/
def aggregateOutcome (rs : List HostResult) : SessionOutcome :=
  if rs.any (fun r => decide (r.status = .failed)) then .failed else .succeeded

/-! ## Notification hub: per-host output sequence numbers

Modelled from the spec: the hub appends each published line to the session
transcript; each host's lines carry a monotonic per-host sequence number
assigned at publication.  Observers (live or replaying) see the transcript in
order. -/

structure OutLine where
  host : String
  seq : Nat
  text : String
deriving DecidableEq, Repr

structure Session where
  transcript : List OutLine
  nextSeq : List (String × Nat)
deriving Repr

def Session.empty : Session := ⟨[], []⟩

/-- The next sequence number the session will assign to a line of `h`. -/
def Session.seqFor (s : Session) (h : String) : Nat :=
  (s.nextSeq.lookup h).getD 0

/-- Modelled from the spec: `publish(sessionID, line)` appends the line with
the host's current sequence number and bumps that host's counter. -/
def publish (s : Session) (h text : String) : Session :=
  { transcript := s.transcript ++ [⟨h, s.seqFor h, text⟩]
    nextSeq := (h, s.seqFor h + 1) :: s.nextSeq.filter (fun p => decide (p.1 ≠ h)) }

/-- Run a whole stream of publish events `(host, text)` through the hub. -/
def publishAll (s : Session) : List (String × String) → Session
  | [] => s
  | (h, text) :: rest => publishAll (publish s h text) rest

/-- The sequence numbers of host `h`'s lines, in transcript order — what any
subscriber observes for that host, live or via replay. -/
def hostSeqs (s : Session) (h : String) : List Nat :=
  (s.transcript.filter (fun ln => decide (ln.host = h))).map OutLine.seq

/-! ## Path matching and name extraction (main.go)

`main.go` matches request paths against the anchored Go regular expressions
`^/(deployLog|commits)/(.*)$` (`validPathWithEnv`) and
`^/(output)/(.*)/(.*)$` (`validPathWithEnvAndTime`).  In Go, `.` matches any
character except a newline, and submatches follow leftmost-greedy (Perl)
semantics, so in the second pattern the first `(.*)` extends to the last `/`
of the remainder and the second group contains no `/`.  Paths are embedded as
`List Char`. -/

/-- Consume an exact literal prefix, returning the remainder (the anchored
literal part `^/(deployLog|commits)/` resp. `^/(output)/` of the patterns). -/
def dropPfx : List Char → List Char → Option (List Char)
  | [], s => some s
  | _ :: _, [] => none
  | p :: ps, a :: as => if a = p then dropPfx ps as else none

/-- Split before/after the LAST occurrence of `c`, or `none` when `c` is
absent — the leftmost-greedy reading of `(.*)c(.*)` on a string. -/
def splitAtLast (c : Char) : List Char → Option (List Char × List Char)
  | [] => none
  | a :: as =>
      match splitAtLast c as with
      | some (x, y) => some (a :: x, y)
      | none => if a = c then some ([], as) else none

/-- Go's `strings.Split(s, sep)` for a one-character separator. -/
def splitOnChar (c : Char) : List Char → List (List Char)
  | [] => [[]]
  | a :: as =>
      let r := splitOnChar c as
      if a = c then [] :: r
      else
        match r with
        | [] => [[a]]
        | x :: xs => (a :: x) :: xs

inductive PathKind where
  | deployLog
  | commits
deriving DecidableEq, Repr

/-- `validPathWithEnv.FindStringSubmatch(path)`: match
`^/(deployLog|commits)/(.*)$`, returning `(m[1], m[2])`.  The `(.*)` group
rejects newlines. -/
def matchPathWithEnv (path : List Char) : Option (PathKind × List Char) :=
  match dropPfx "/deployLog/".toList path with
  | some rest => if rest.contains '\n' then none else some (.deployLog, rest)
  | none =>
      match dropPfx "/commits/".toList path with
      | some rest => if rest.contains '\n' then none else some (.commits, rest)
      | none => none

/-- `validPathWithEnvAndTime.FindStringSubmatch(path)`: match
`^/(output)/(.*)/(.*)$`, returning `(m[2], m[3])`.  Both `(.*)` groups reject
newlines; by greediness the first group runs to the last `/`. -/
def matchOutputPath (path : List Char) : Option (List Char × List Char) :=
  match dropPfx "/output/".toList path with
  | none => none
  | some rest =>
      if rest.contains '\n' then none else splitAtLast '/' rest

/-- Line 65 of main.go: `environmentName := a[l-1]` where
`a := strings.Split(m[2], "-")` (`strings.Split` never returns an empty
slice, so `getLastD` meets no default). -/
def envNameOf (rest : List Char) : List Char :=
  (splitOnChar '-' rest).getLastD []

/-- Go's `strings.Join(parts, sep)` for a one-character separator. -/
def joinWithChar (c : Char) : List (List Char) → List Char
  | [] => []
  | [x] => x
  | x :: y :: ys => x ++ c :: joinWithChar c (y :: ys)

/-- Lines 66–71 of main.go: `projectName` is all of `m[2]` for `commits`, and
`strings.Join(a[0:l-1], "-")` for `deployLog`. -/
def projectNameOf (kind : PathKind) (rest : List Char) : List Char :=
  match kind with
  | .commits => rest
  | .deployLog => joinWithChar '-' (splitOnChar '-' rest).dropLast

/-- The name-extraction stage of `extractDeployLogHandler` (lines 44 and
63–71 of main.go): regex-match the path, then split `m[2]` into
`(projectName, environmentName)`; `none` when the path does not match. -/
def deployLogParsedNames (path : List Char) : Option (List Char × List Char) :=
  match matchPathWithEnv path with
  | none => none
  | some (kind, rest) => some (projectNameOf kind rest, envNameOf rest)

/-! ## The deployLog/commits handler (main.go, `extractDeployLogHandler`)

The collaborators the handler calls — `goship.ParseETCD`, `auth.CurrentUser`,
`acl.ReadableProjects`, `goship.EnvironmentFromName` — live outside this tree.
The first two are inputs of the embedded handler (their per-request results);
the last two are modelled from the spec below. -/

structure GEnvironment where
  name : List Char
deriving DecidableEq, Repr

structure GProject where
  name : List Char
  environments : List GEnvironment
deriving DecidableEq, Repr

structure GConfig where
  projects : List GProject
deriving DecidableEq, Repr

structure GUser where
  name : List Char
deriving DecidableEq, Repr

/-- Go zero value of `auth.User`, which is what `u` holds when
`auth.CurrentUser` returned an error. -/
def zeroUser : GUser := ⟨[]⟩

/-- The ACL collaborator: whether a user may read a project. -/
abbrev AccessControl := GUser → GProject → Bool

/-- Modelled from the spec: `acl.ReadableProjects` keeps exactly the projects
the ACL lets the user read (the topology is "filtered by the ACL collaborator
before reaching the core"). -/
def readableProjects (ac : AccessControl) (ps : List GProject) (u : GUser) :
    List GProject :=
  ps.filter (ac u)

/-- Modelled from the spec: `goship.EnvironmentFromName` resolves a named
environment inside a named project of the supplied project list, and fails
("environment/project not found") otherwise. -/
def environmentFromName (ps : List GProject) (projectName envName : List Char) :
    Option GEnvironment :=
  match ps.find? (fun p => decide (p.name = projectName)) with
  | none => none
  | some p => p.environments.find? (fun e => decide (e.name = envName))

/-- The user the handler continues with: the authenticated user, or the Go
zero value when `auth.CurrentUser` failed (the handler does not return). -/
def effectiveUser (cu : Except String GUser) : GUser :=
  match cu with
  | .error _ => zeroUser
  | .ok u => u

/-- Error message of the modelled `goship.EnvironmentFromName` failure. -/
def envNotFoundMsg : String := "environment not found"

/-- Observable actions of a handler on its `ResponseWriter` and wrapped
function, in the order the Go code performs them. -/
inductive HAction where
  | notFound
  | httpError (status : Nat) (msg : String)
  | callFn (name : List Char) (env : GEnvironment) (project : List Char)
deriving DecidableEq, Repr

/-- Lines 42–80 of main.go, `extractDeployLogHandler`: regex-match the path;
parse the topology (500 and stop on failure); fetch the user (401 written on
failure but execution continues with the zero user); ACL-filter the projects;
split `m[2]` into project and environment names; resolve the environment
(500 and stop on failure); finally call the wrapped function. -/
def extractDeployLogHandler (ac : AccessControl)
    (parseETCD : Except String GConfig) (currentUser : Except String GUser)
    (path : List Char) : List HAction :=
  match matchPathWithEnv path with
  | none => [.notFound]
  | some (kind, rest) =>
      match parseETCD with
      | .error e => [.httpError 500 e]
      | .ok c =>
          let authActs : List HAction :=
            match currentUser with
            | .error e => [.httpError 401 e]
            | .ok _ => []
          let u := effectiveUser currentUser
          let projects := readableProjects ac c.projects u
          let environmentName := envNameOf rest
          let projectName := projectNameOf kind rest
          match environmentFromName projects projectName environmentName with
          | none => authActs ++ [.httpError 500 envNotFoundMsg]
          | some e => authActs ++ [.callFn rest e projectName]

/-- Lines 94–103 of main.go, `extractOutputHandler`: 404 unless the path
matches `validPathWithEnvAndTime`, else call the wrapped function with
`m[2]` (environment) and `m[3]` (timestamp). -/
inductive OutputResponse where
  | notFound
  | callFn (environment time : List Char)
deriving DecidableEq, Repr

def extractOutputHandler (path : List Char) : OutputResponse :=
  match matchOutputPath path with
  | none => .notFound
  | some (env, time) => .callFn env time

/-! ## GitHub client construction and startup (main.go) -/

/-- The process environment's `GITHUB_API_TOKEN` entry: `none` when unset.
Go's `os.Getenv` collapses unset to the empty string. -/
def osGetenv (v : Option String) : String := v.getD ""

structure GithubClient where
  token : String
deriving DecidableEq, Repr

/-- Lines 109–115 of main.go, `newGithubClient`: error when the
`GITHUB_API_TOKEN` environment variable is empty or unset, otherwise a client
built from the token. -/
def newGithubClient (tokenVar : Option String) : Except String GithubClient :=
  let gt := osGetenv tokenVar
  if gt = "" then .error "environment variable GITHUB_API_TOKEN not defined"
  else .ok ⟨gt⟩

inductive StartupResult where
  | panicked (msg : String)
  | serving (gcl : GithubClient) (authEnabled : Bool)
deriving DecidableEq, Repr

/-- Lines 117–134 of main.go, the startup sequence of `main` up to the point
the process is committed to serving: `newGithubClient` runs unconditionally
(before the `auth.Enabled()` branch) and its failure is a `log.Panicf`. -/
def mainStartup (tokenVar : Option String) (authEnabled : Bool) : StartupResult :=
  match newGithubClient tokenVar with
  | .error e => .panicked ("Failed to build github client: " ++ e)
  | .ok gcl => .serving gcl authEnabled

/-! ## Lock manager lemmas -/

theorem get_put (st : LockStore) (k : String) (l : Lock) :
    (st.put k l).get k = some l := by
  simp [LockStore.put, LockStore.get, List.lookup]

theorem get_remove (st : LockStore) (k : String) :
    (st.remove k).get k = none := by
  induction st with
  | nil => rfl
  | cons p st ih =>
      by_cases h : p.1 = k
      · simpa [LockStore.remove, List.filter_cons, h] using ih
      · have hk : (k == p.1) = false := by
          simp [Ne.symm h]
        simpa [LockStore.remove, LockStore.get, List.filter_cons, h,
          List.lookup, hk] using ih

theorem acquire_granted_state (st : LockStore) (k h : String) (ttl t : Nat)
    (st₁ : LockStore) (hgr : acquire st k h ttl t = (.granted, st₁)) :
    st₁.get k = some ⟨h, t, ttl⟩ := by
  cases hst : st.get k with
  | none =>
      simp [acquire, hst] at hgr
      rw [← hgr]
      exact get_put st k ⟨h, t, ttl⟩
  | some l =>
      by_cases hexp : l.expired t
      · simp [acquire, hst, hexp] at hgr
        rw [← hgr]
        exact get_put st k ⟨h, t, ttl⟩
      · simp [acquire, hst, hexp] at hgr

theorem acquire_conflict_of_unexpired (st : LockStore) (k : String) (l : Lock)
    (h : String) (ttl t : Nat) (hst : st.get k = some l)
    (hlive : t < l.acquiredAt + l.ttl) :
    acquire st k h ttl t = (.conflict l.holder l.acquiredAt, st) := by
  have hexp : l.expired t = false := by
    simp only [Lock.expired, decide_eq_false_iff_not]
    omega
  simp [acquire, hst, hexp]

theorem acquireAll_all_conflict (k : String) (ttl : Nat) (l : Lock) :
    ∀ (reqs : List (String × Nat)) (st : LockStore), st.get k = some l →
    (∀ p ∈ reqs, p.2 < l.acquiredAt + l.ttl) →
    acquireAll st k ttl reqs =
      (reqs.map (fun _ => .conflict l.holder l.acquiredAt), st) := by
  intro reqs
  induction reqs with
  | nil => intro st _ _; rfl
  | cons q reqs ih =>
      intro st hst hall
      have hq := hall q (List.mem_cons_self q reqs)
      have hc := acquire_conflict_of_unexpired st k l q.1 ttl q.2 hst hq
      have hrest := ih st hst (fun p hp => hall p (List.mem_cons_of_mem q hp))
      simp [acquireAll, hc, hrest]

/-- C1: for every lock key, at most one non-expired lock exists at any
instant: while a prior grant on a key is unexpired, every further acquire on
that key fails with a conflict carrying the first holder's identity, and in
any batch of acquire attempts on a fresh key whose instants all fall inside
the first attempt's TTL window, exactly one attempt (hence at most one) is
granted. -/
theorem lock_at_most_one_live :
    (∀ (st : LockStore) (k h₀ : String) (ttl t₀ : Nat) (st₁ : LockStore),
      acquire st k h₀ ttl t₀ = (.granted, st₁) →
      ∀ (h₁ : String) (t₁ : Nat), t₁ < t₀ + ttl →
        acquire st₁ k h₁ ttl t₁ = (.conflict h₀ t₀, st₁))
    ∧ (∀ (k h : String) (ttl t : Nat) (reqs : List (String × Nat)),
        (∀ p ∈ reqs, p.2 < t + ttl) →
        countGranted (acquireAll [] k ttl ((h, t) :: reqs)).1 = 1) := by
  constructor
  · intro st k h₀ ttl t₀ st₁ hgr h₁ t₁ hlive
    have hst₁ := acquire_granted_state st k h₀ ttl t₀ st₁ hgr
    exact acquire_conflict_of_unexpired st₁ k ⟨h₀, t₀, ttl⟩ h₁ ttl t₁ hst₁ hlive
  · intro k h ttl t reqs hall
    have hfirst : acquire [] k h ttl t =
        (.granted, LockStore.put [] k ⟨h, t, ttl⟩) := rfl
    have hget : (LockStore.put [] k ⟨h, t, ttl⟩).get k = some ⟨h, t, ttl⟩ :=
      get_put [] k ⟨h, t, ttl⟩
    have hrest := acquireAll_all_conflict k ttl ⟨h, t, ttl⟩ reqs
      (LockStore.put [] k ⟨h, t, ttl⟩) hget hall
    simp [acquireAll, hfirst, hrest, countGranted, List.countP_map]

/-- Witness for C1 at a concrete instance: key `"p/e"`, holder `alice` at
instant 0 with TTL 10, challengers at instants 3 and 9. -/
theorem lock_at_most_one_live_witness :
    acquire (LockStore.put [] "p/e" ⟨"alice", 0, 10⟩) "p/e" "bob" 10 3 =
      (.conflict "alice" 0, LockStore.put [] "p/e" ⟨"alice", 0, 10⟩)
    ∧ countGranted
        (acquireAll [] "p/e" 10 [("alice", 0), ("bob", 3), ("carol", 9)]).1 = 1 := by
  constructor
  · exact lock_at_most_one_live.1 [] "p/e" "alice" 10 0
      (LockStore.put [] "p/e" ⟨"alice", 0, 10⟩) rfl "bob" 3 (by decide)
  · exact lock_at_most_one_live.2 "p/e" "alice" 10 0 [("bob", 3), ("carol", 9)]
      (by decide)

/-- C2: a deploy attempt that acquired the environment lock releases it on
every exit path — success, execution failure, panic/crash recovery and
timeout — so after any terminating attempt the key holds no lock. -/
theorem lock_released_on_all_exit_paths (st : LockStore) (k h : String)
    (ttl now : Nat) (st₁ : LockStore)
    (hgr : acquire st k h ttl now = (.granted, st₁)) :
    ∀ outcome : ExecOutcome,
      (deployAttempt st k h ttl now outcome).1 = .completed outcome
      ∧ ((deployAttempt st k h ttl now outcome).2).get k = none := by
  intro outcome
  have hst₁ := acquire_granted_state st k h ttl now st₁ hgr
  have hrel : release st₁ k h = (.released, st₁.remove k) := by
    unfold release
    rw [hst₁]
    simp
  simp [deployAttempt, hgr, hrel, get_remove]

/-- Witness for C2: holder `alice` acquires `"p/e"` on the empty store and the
attempt ends in a panic; the lock is gone afterwards. -/
theorem lock_released_on_all_exit_paths_witness :
    (deployAttempt [] "p/e" "alice" 10 0 .panicked).1 = .completed .panicked
    ∧ ((deployAttempt [] "p/e" "alice" 10 0 .panicked).2).get "p/e" = none :=
  lock_released_on_all_exit_paths [] "p/e" "alice" 10 0
    (LockStore.put [] "p/e" ⟨"alice", 0, 10⟩) rfl ExecOutcome.panicked

/-! ## Execution engine lemmas -/

theorem runEnvironment_cons (h : HostSpec) (hs : List HostSpec) :
    runEnvironment (h :: hs) = runHost h :: runEnvironment hs := rfl

theorem count_failed_runEnv (hosts : List HostSpec) :
    (runEnvironment hosts).countP (fun r => decide (r.status = .failed))
      = hosts.countP (fun h => h.fails) := by
  induction hosts with
  | nil => rfl
  | cons h hs ih =>
      rw [runEnvironment_cons, List.countP_cons, List.countP_cons]
      cases hf : h.fails <;> simp [runHost, hf] <;> omega

theorem count_succeeded_runEnv (hosts : List HostSpec) :
    (runEnvironment hosts).countP (fun r => decide (r.status = .succeeded))
      + hosts.countP (fun h => h.fails) = hosts.length := by
  induction hosts with
  | nil => rfl
  | cons h hs ih =>
      rw [runEnvironment_cons, List.countP_cons, List.countP_cons]
      cases hf : h.fails <;> simp [runHost, hf] <;> omega

theorem any_failed_iff (hosts : List HostSpec) :
    ((runEnvironment hosts).any (fun r => decide (r.status = .failed)) = true)
      ↔ 0 < hosts.countP (fun h => h.fails) := by
  rw [List.any_eq_true, List.countP_pos_iff]
  constructor
  · rintro ⟨r, hr, hp⟩
    rcases List.mem_map.mp hr with ⟨h, hh, rfl⟩
    refine ⟨h, hh, ?_⟩
    cases hf : h.fails
    · simp [runHost, hf] at hp
    · rfl
  · rintro ⟨h, hh, hf⟩
    exact ⟨runHost h, List.mem_map_of_mem _ hh, by simp [runHost]; exact hf⟩

theorem aggregate_failed_iff (hosts : List HostSpec) :
    aggregateOutcome (runEnvironment hosts) = .failed
      ↔ 0 < hosts.countP (fun h => h.fails) := by
  by_cases hany :
      (runEnvironment hosts).any (fun r => decide (r.status = .failed)) = true
  · simp [aggregateOutcome, hany, (any_failed_iff hosts).mp hany]
  · have hnc : ¬ 0 < hosts.countP (fun h => h.fails) :=
      fun hc => hany ((any_failed_iff hosts).mpr hc)
    simp [aggregateOutcome, hany, hnc]

/-- C3: with N hosts of which exactly K fail, all N hosts reach a terminal
status, each host's result depends only on that host, exactly K results report
failure and N−K report success, and the aggregate outcome is `failed` iff
K > 0 and `succeeded` iff K = 0. -/
theorem partial_failure_aggregation (hosts : List HostSpec) :
    (runEnvironment hosts).length = hosts.length
    ∧ (∀ r ∈ runEnvironment hosts, r.status = .succeeded ∨ r.status = .failed)
    ∧ (∀ i : Nat, (runEnvironment hosts)[i]? = (hosts[i]?).map runHost)
    ∧ (runEnvironment hosts).countP (fun r => decide (r.status = .failed))
        = hosts.countP (fun h => h.fails)
    ∧ (runEnvironment hosts).countP (fun r => decide (r.status = .succeeded))
        = hosts.length - hosts.countP (fun h => h.fails)
    ∧ (aggregateOutcome (runEnvironment hosts) = .failed
        ↔ 0 < hosts.countP (fun h => h.fails))
    ∧ (aggregateOutcome (runEnvironment hosts) = .succeeded
        ↔ hosts.countP (fun h => h.fails) = 0) := by
  refine ⟨?_, ?_, ?_, count_failed_runEnv hosts, ?_, aggregate_failed_iff hosts, ?_⟩
  · simp [runEnvironment]
  · intro r hr
    rcases List.mem_map.mp hr with ⟨h, _, rfl⟩
    cases hf : h.fails <;> simp [runHost, hf]
  · intro i
    simp [runEnvironment]
  · have := count_succeeded_runEnv hosts
    omega
  · constructor
    · intro hs
      by_contra hne
      have hpos : 0 < hosts.countP (fun h => h.fails) := Nat.pos_of_ne_zero hne
      have hfe := (aggregate_failed_iff hosts).mpr hpos
      rw [hs] at hfe
      exact absurd hfe (by decide)
    · intro h0
      have hnf : aggregateOutcome (runEnvironment hosts) ≠ .failed := by
        intro hfe
        have := (aggregate_failed_iff hosts).mp hfe
        omega
      cases hagg : aggregateOutcome (runEnvironment hosts)
      · rfl
      · exact absurd hagg hnf

/-- Witness for C3: hosts `[h1 ok, h2 fails, h3 ok]` — three terminal results,
one failure, two successes, aggregate `failed`. -/
theorem partial_failure_aggregation_witness :
    (runEnvironment [⟨"h1", false⟩, ⟨"h2", true⟩, ⟨"h3", false⟩]).length = 3
    ∧ (runEnvironment [⟨"h1", false⟩, ⟨"h2", true⟩, ⟨"h3", false⟩]).countP
        (fun r => decide (r.status = .failed)) = 1
    ∧ (runEnvironment [⟨"h1", false⟩, ⟨"h2", true⟩, ⟨"h3", false⟩]).countP
        (fun r => decide (r.status = .succeeded)) = 2
    ∧ aggregateOutcome (runEnvironment [⟨"h1", false⟩, ⟨"h2", true⟩, ⟨"h3", false⟩])
        = .failed := by
  obtain ⟨h1, -, -, h4, h5, h6, -⟩ :=
    partial_failure_aggregation [⟨"h1", false⟩, ⟨"h2", true⟩, ⟨"h3", false⟩]
  refine ⟨by simpa using h1, by simpa using h4, by simpa using h5, h6.mpr (by decide)⟩

/-! ## Notification hub lemmas -/

theorem lookup_filter_ne (h h' : String) (hne : h ≠ h')
    (l : List (String × Nat)) :
    List.lookup h (l.filter (fun p => decide (p.1 ≠ h'))) = List.lookup h l := by
  induction l with
  | nil => rfl
  | cons p l ih =>
      by_cases hp : p.1 = h'
      · have hb : (h == p.1) = false := by
          rw [hp]
          exact beq_false_of_ne hne
        rw [List.filter_cons_of_neg (by simp [hp])]
        rw [ih, List.lookup, hb]
      · rw [List.filter_cons_of_pos (by simp [hp])]
        cases hb : h == p.1 with
        | true => rw [List.lookup, List.lookup, hb]
        | false => rw [List.lookup, List.lookup, hb, ih]

theorem seqFor_def (s : Session) (h : String) :
    s.seqFor h = (s.nextSeq.lookup h).getD 0 := rfl

theorem publish_nextSeq (s : Session) (h text : String) :
    (publish s h text).nextSeq =
      (h, s.seqFor h + 1) :: s.nextSeq.filter (fun p => decide (p.1 ≠ h)) := rfl

theorem lookup_cons_self {β : Type} (k : String) (v : β)
    (l : List (String × β)) : List.lookup k ((k, v) :: l) = some v := by
  simp [List.lookup]

theorem lookup_cons_ne {β : Type} (k k' : String) (v : β)
    (l : List (String × β)) (hb : (k == k') = false) :
    List.lookup k ((k', v) :: l) = List.lookup k l := by
  simp [List.lookup, hb]

theorem publish_seqFor (s : Session) (h' text h : String) :
    (publish s h' text).seqFor h =
      if h' = h then s.seqFor h + 1 else s.seqFor h := by
  by_cases he : h' = h
  · subst he
    rw [if_pos rfl, seqFor_def, publish_nextSeq, lookup_cons_self]
    rfl
  · have hne : h ≠ h' := fun e => he e.symm
    have hb : (h == h') = false := beq_false_of_ne hne
    rw [if_neg he, seqFor_def, publish_nextSeq, lookup_cons_ne h h' _ _ hb,
      lookup_filter_ne h h' hne, ← seqFor_def]

theorem publish_hostSeqs (s : Session) (h' text h) :
    hostSeqs (publish s h' text) h =
      if h' = h then hostSeqs s h ++ [s.seqFor h] else hostSeqs s h := by
  by_cases he : h' = h <;>
    simp [publish, hostSeqs, List.filter_append, he]

theorem publishAll_seqFor (h : String) :
    ∀ (events : List (String × String)) (s : Session),
      (publishAll s events).seqFor h =
        s.seqFor h + events.countP (fun e => decide (e.1 = h)) := by
  intro events
  induction events with
  | nil => intro s; simp [publishAll]
  | cons e es ih =>
      intro s
      obtain ⟨eh, et⟩ := e
      rw [publishAll, ih, publish_seqFor]
      by_cases he : eh = h
      · simp [he, List.countP_cons]
        omega
      · simp [he, List.countP_cons]

theorem publishAll_hostSeqs (h : String) :
    ∀ (events : List (String × String)) (s : Session),
      hostSeqs s h = List.range (s.seqFor h) →
      hostSeqs (publishAll s events) h =
        List.range ((publishAll s events).seqFor h) := by
  intro events
  induction events with
  | nil => intro s hs; simpa [publishAll] using hs
  | cons e es ih =>
      intro s hs
      obtain ⟨eh, et⟩ := e
      rw [publishAll]
      apply ih
      rw [publish_hostSeqs, publish_seqFor]
      by_cases he : eh = h
      · simp [he, hs, List.range_succ]
      · simp [he, hs]

/-- C4: for a single host, the sequence numbers of its output lines as they
stand in the transcript — what any subscriber observes, live or via replay —
are exactly `0, 1, …, k−1` in the host's emission order (strictly increasing,
no gaps); lines of other hosts do not enter this ordering. -/
theorem per_host_seq_strictly_increasing_no_gaps
    (events : List (String × String)) (h : String) :
    hostSeqs (publishAll Session.empty events) h
        = List.range (events.countP (fun e => decide (e.1 = h)))
    ∧ (hostSeqs (publishAll Session.empty events) h).Pairwise (· < ·) := by
  have hbase : hostSeqs Session.empty h = List.range (Session.empty.seqFor h) := by
    simp [Session.empty, hostSeqs, Session.seqFor, List.lookup]
  have hinv := publishAll_hostSeqs h events Session.empty hbase
  have hcount := publishAll_seqFor h events Session.empty
  have hzero : Session.empty.seqFor h = 0 := by
    simp [Session.empty, Session.seqFor, List.lookup]
  rw [hinv, hcount, hzero, Nat.zero_add]
  exact ⟨rfl, List.pairwise_lt_range _⟩

/-! ## Path and split lemmas -/

theorem dropPfx_append (p s : List Char) : dropPfx p (p ++ s) = some s := by
  induction p with
  | nil => rfl
  | cons a p ih => simp [dropPfx, ih]

theorem dropPfx_deployLog_commits (s : List Char) :
    dropPfx "/deployLog/".toList ("/commits/".toList ++ s) = none := rfl

theorem dropPfx_deployLog_self (s : List Char) :
    dropPfx "/deployLog/".toList ("/deployLog/".toList ++ s) = some s :=
  dropPfx_append "/deployLog/".toList s

theorem dropPfx_commits_self (s : List Char) :
    dropPfx "/commits/".toList ("/commits/".toList ++ s) = some s :=
  dropPfx_append "/commits/".toList s

theorem matchPathWithEnv_deployLog (s : List Char) :
    matchPathWithEnv ("/deployLog/".toList ++ s) =
      if s.contains '\n' then none else some (.deployLog, s) := by
  unfold matchPathWithEnv
  rw [dropPfx_deployLog_self]

theorem matchPathWithEnv_commits (s : List Char) :
    matchPathWithEnv ("/commits/".toList ++ s) =
      if s.contains '\n' then none else some (.commits, s) := by
  unfold matchPathWithEnv
  rw [dropPfx_deployLog_commits, dropPfx_commits_self]

theorem matchOutputPath_append (rest : List Char) :
    matchOutputPath ("/output/".toList ++ rest) =
      if rest.contains '\n' then none else splitAtLast '/' rest := by
  unfold matchOutputPath
  rw [dropPfx_append]

theorem splitAtLast_eq_none (c : Char) (s : List Char) :
    splitAtLast c s = none ↔ c ∉ s := by
  induction s with
  | nil => simp [splitAtLast]
  | cons a as ih =>
      cases hsp : splitAtLast c as with
      | some p =>
          have : c ∈ as := by
            by_contra hc
            rw [ih.mpr hc] at hsp
            cases hsp
          simp [splitAtLast, hsp, this]
      | none =>
          by_cases ha : a = c
          · simp [splitAtLast, hsp, ha]
          · simp [splitAtLast, hsp, ha, ih.mp hsp, Ne.symm ha]

theorem splitAtLast_concat (c : Char) (x y : List Char) (hy : c ∉ y) :
    splitAtLast c (x ++ c :: y) = some (x, y) := by
  induction x with
  | nil => simp [splitAtLast, (splitAtLast_eq_none c y).mpr hy]
  | cons a x ih => simp [splitAtLast, ih]

theorem splitAtLast_snd_not_mem (c : Char) :
    ∀ (s x y : List Char), splitAtLast c s = some (x, y) → c ∉ y := by
  intro s
  induction s with
  | nil => intro x y h; cases h
  | cons a as ih =>
      intro x y h
      cases hsp : splitAtLast c as with
      | some p =>
          obtain ⟨x', y'⟩ := p
          rw [splitAtLast, hsp] at h
          cases h
          exact ih _ _ hsp
      | none =>
          rw [splitAtLast, hsp] at h
          by_cases ha : a = c
          · rw [if_pos ha] at h
            cases h
            exact (splitAtLast_eq_none c as).mp hsp
          · rw [if_neg ha] at h
            cases h

theorem splitOnChar_ne_nil (c : Char) (s : List Char) :
    splitOnChar c s ≠ [] := by
  cases s with
  | nil => simp [splitOnChar]
  | cons a as =>
      simp only [splitOnChar]
      split
      · simp
      · split <;> simp

theorem splitOnChar_sep (c : Char) (x y : List Char) :
    splitOnChar c (x ++ c :: y) =
      splitOnChar c x ++ splitOnChar c y := by
  induction x with
  | nil => simp [splitOnChar]
  | cons a x ih =>
      by_cases ha : a = c
      · simp [splitOnChar, ha, ih]
      · cases hsx : splitOnChar c x with
        | nil => exact absurd hsx (splitOnChar_ne_nil c x)
        | cons hd tl => simp [splitOnChar, ha, ih, hsx]

theorem splitOnChar_no_sep (c : Char) (s : List Char) (h : c ∉ s) :
    splitOnChar c s = [s] := by
  induction s with
  | nil => rfl
  | cons a as ih =>
      have ha : ¬ a = c := fun e => h (e ▸ List.mem_cons_self a as)
      have has : c ∉ as := fun hc => h (List.mem_cons_of_mem a hc)
      simp [splitOnChar, ha, ih has]

theorem joinWithChar_splitOnChar (c : Char) (s : List Char) :
    joinWithChar c (splitOnChar c s) = s := by
  induction s with
  | nil => rfl
  | cons a as ih =>
      by_cases ha : a = c
      · cases hsp : splitOnChar c as with
        | nil => exact absurd hsp (splitOnChar_ne_nil c as)
        | cons hd tl =>
            rw [hsp] at ih
            simp [splitOnChar, ha, hsp, joinWithChar, ih]
      · cases hsp : splitOnChar c as with
        | nil => exact absurd hsp (splitOnChar_ne_nil c as)
        | cons hd tl =>
            rw [hsp] at ih
            cases tl with
            | nil =>
                simp [splitOnChar, ha, hsp, joinWithChar] at ih ⊢
                exact ih
            | cons t ts =>
                simp [splitOnChar, ha, hsp, joinWithChar] at ih ⊢
                rw [ih]

/-- Name extraction on a dash-containing `m[2]`: with `s = x ++ '-' :: y` and
no dash in `y`, the environment name is `y` and the deployLog project name is
`x`. -/
theorem names_of_dash (x y : List Char) (hy : '-' ∉ y) :
    envNameOf (x ++ '-' :: y) = y
    ∧ projectNameOf .deployLog (x ++ '-' :: y) = x := by
  have hsp : splitOnChar '-' (x ++ '-' :: y) = splitOnChar '-' x ++ [y] := by
    rw [splitOnChar_sep, splitOnChar_no_sep '-' y hy]
  constructor
  · rw [envNameOf, hsp, List.getLastD_concat]
  · rw [projectNameOf, hsp, List.dropLast_concat, joinWithChar_splitOnChar]

/-- Name extraction on a dash-free `m[2]`: the environment name is all of
`m[2]` and the deployLog project name is empty. -/
theorem names_of_nodash (s : List Char) (hs : '-' ∉ s) :
    envNameOf s = s ∧ projectNameOf .deployLog s = [] := by
  have hsp : splitOnChar '-' s = [s] := splitOnChar_no_sep '-' s hs
  constructor
  · rw [envNameOf, hsp]
    rfl
  · rw [projectNameOf, hsp]
    rfl

/-! ## deployLog/commits handler lemmas -/

theorem contains_eq_false_iff (s : List Char) (c : Char) :
    (s.contains c = false) ↔ c ∉ s := by
  rw [← Bool.not_eq_true]
  exact not_congr List.elem_iff

theorem handler_no_match (ac : AccessControl) (pr : Except String GConfig)
    (cu : Except String GUser) (path : List Char)
    (hm : matchPathWithEnv path = none) :
    extractDeployLogHandler ac pr cu path = [.notFound] := by
  unfold extractDeployLogHandler
  rw [hm]

theorem handler_parse_error (ac : AccessControl) (cu : Except String GUser)
    (path : List Char) (kind : PathKind) (rest : List Char) (e : String)
    (hm : matchPathWithEnv path = some (kind, rest)) :
    extractDeployLogHandler ac (.error e) cu path = [.httpError 500 e] := by
  unfold extractDeployLogHandler
  rw [hm]

theorem handler_ok (ac : AccessControl) (c : GConfig)
    (cu : Except String GUser) (path : List Char) (kind : PathKind)
    (rest : List Char) (hm : matchPathWithEnv path = some (kind, rest)) :
    extractDeployLogHandler ac (.ok c) cu path =
      (match cu with
        | .error e => [HAction.httpError 401 e]
        | .ok _ => ([] : List HAction)) ++
      (match environmentFromName (readableProjects ac c.projects (effectiveUser cu))
          (projectNameOf kind rest) (envNameOf rest) with
        | none => [HAction.httpError 500 envNotFoundMsg]
        | some env => [HAction.callFn rest env (projectNameOf kind rest)]) := by
  cases henv : environmentFromName (readableProjects ac c.projects (effectiveUser cu))
      (projectNameOf kind rest) (envNameOf rest) with
  | none => cases cu <;> simp [extractDeployLogHandler, hm, henv]
  | some env => cases cu <;> simp [extractDeployLogHandler, hm, henv]

/-- C5: on a matched deployLog/commits path, if the topology parse fails or
the named project/environment does not resolve among the user-readable
projects, the handler reports a 500 error and never invokes the wrapped
per-environment function. -/
theorem deploylog_config_error_no_side_effects (ac : AccessControl)
    (pr : Except String GConfig) (cu : Except String GUser) (path : List Char)
    (kind : PathKind) (rest : List Char)
    (hm : matchPathWithEnv path = some (kind, rest))
    (hfail : (∃ e, pr = Except.error e) ∨
      ∃ c, pr = Except.ok c ∧
        environmentFromName (readableProjects ac c.projects (effectiveUser cu))
          (projectNameOf kind rest) (envNameOf rest) = none) :
    (∃ m, HAction.httpError 500 m ∈ extractDeployLogHandler ac pr cu path)
    ∧ ∀ n env p, HAction.callFn n env p ∉ extractDeployLogHandler ac pr cu path := by
  rcases hfail with ⟨e, rfl⟩ | ⟨c, rfl, henv⟩
  · rw [handler_parse_error ac cu path kind rest e hm]
    refine ⟨⟨e, by simp⟩, ?_⟩
    intro n env p hmem
    simp at hmem
  · rw [handler_ok ac c cu path kind rest hm, henv]
    constructor
    · exact ⟨envNotFoundMsg, by cases cu <;> simp⟩
    · intro n env p hmem
      cases cu <;> simp at hmem

/-- Witness for C5: the topology parse fails with "boom" on
`/deployLog/p-e`; the handler answers 500 and calls nothing. -/
theorem deploylog_config_error_no_side_effects_witness :
    (∃ m, HAction.httpError 500 m ∈
      extractDeployLogHandler (fun _ _ => true) (.error "boom")
        (.ok ⟨[]⟩) "/deployLog/p-e".toList)
    ∧ ∀ n env p, HAction.callFn n env p ∉
        extractDeployLogHandler (fun _ _ => true) (.error "boom")
          (.ok ⟨[]⟩) "/deployLog/p-e".toList :=
  deploylog_config_error_no_side_effects (fun _ _ => true) (.error "boom")
    (.ok ⟨[]⟩) "/deployLog/p-e".toList .deployLog "p-e".toList (by decide)
    (Or.inl ⟨"boom", rfl⟩)

/-- C6: the per-request topology is ACL-filtered before environment
resolution — any environment the wrapped function receives lies in a project
of the freshly parsed topology that the effective user may read; and when
every project bearing the looked-up name is unreadable, resolution fails as
not-found and the wrapped function is never invoked. -/
theorem deploylog_acl_filter_before_resolution (ac : AccessControl)
    (pr : Except String GConfig) (cu : Except String GUser) (path : List Char) :
    (∀ n env p, HAction.callFn n env p ∈ extractDeployLogHandler ac pr cu path →
      ∃ c proj, pr = Except.ok c ∧ proj ∈ c.projects
        ∧ ac (effectiveUser cu) proj = true ∧ env ∈ proj.environments)
    ∧ (∀ kind rest c, matchPathWithEnv path = some (kind, rest) →
        pr = Except.ok c →
        (∀ proj ∈ c.projects, proj.name = projectNameOf kind rest →
          ac (effectiveUser cu) proj = false) →
        ∀ n env p, HAction.callFn n env p ∉ extractDeployLogHandler ac pr cu path) := by
  constructor
  · intro n env p hmem
    cases hm : matchPathWithEnv path with
    | none =>
        rw [handler_no_match ac pr cu path hm] at hmem
        simp at hmem
    | some kp =>
        obtain ⟨kind, rest⟩ := kp
        cases pr with
        | error e =>
            rw [handler_parse_error ac cu path kind rest e hm] at hmem
            simp at hmem
        | ok c =>
            rw [handler_ok ac c cu path kind rest hm] at hmem
            cases henv : environmentFromName
                (readableProjects ac c.projects (effectiveUser cu))
                (projectNameOf kind rest) (envNameOf rest) with
            | none =>
                rw [henv] at hmem
                cases cu <;> simp at hmem
            | some env' =>
                rw [henv] at hmem
                have hinj : n = rest ∧ env = env' ∧ p = projectNameOf kind rest := by
                  cases cu <;> simpa using hmem
                obtain ⟨-, rfl, -⟩ := hinj
                unfold environmentFromName at henv
                cases hfp : (readableProjects ac c.projects
                    (effectiveUser cu)).find?
                    (fun pj => decide (pj.name = projectNameOf kind rest)) with
                | none => rw [hfp] at henv; cases henv
                | some proj =>
                    rw [hfp] at henv
                    have hprojmem := List.mem_filter.mp (List.mem_of_find?_eq_some hfp)
                    refine ⟨c, proj, rfl, hprojmem.1, hprojmem.2, ?_⟩
                    exact List.mem_of_find?_eq_some henv
  · intro kind rest c hm hpr hunread n env p hmem
    subst hpr
    rw [handler_ok ac c cu path kind rest hm] at hmem
    have hfind : (readableProjects ac c.projects (effectiveUser cu)).find?
        (fun pj => decide (pj.name = projectNameOf kind rest)) = none := by
      rw [List.find?_eq_none]
      intro pj hpj hname
      rcases List.mem_filter.mp hpj with ⟨hmemp, hac⟩
      have hfalse := hunread pj hmemp (of_decide_eq_true hname)
      rw [hfalse] at hac
      cases hac
    have henv : environmentFromName
        (readableProjects ac c.projects (effectiveUser cu))
        (projectNameOf kind rest) (envNameOf rest) = none := by
      unfold environmentFromName
      rw [hfind]
    rw [henv] at hmem
    cases cu <;> simp at hmem

/-- Witness for C6: a topology with one project `p` (environment `e`), an ACL
that denies everything, and the path `/deployLog/p-e`; the wrapped function is
not invoked. -/
theorem deploylog_acl_filter_before_resolution_witness :
    HAction.callFn "p-e".toList ⟨"e".toList⟩ "p".toList ∉
      extractDeployLogHandler (fun _ _ => false)
        (.ok ⟨[⟨"p".toList, [⟨"e".toList⟩]⟩]⟩) (.ok ⟨[]⟩)
        "/deployLog/p-e".toList :=
  (deploylog_acl_filter_before_resolution (fun _ _ => false)
      (.ok ⟨[⟨"p".toList, [⟨"e".toList⟩]⟩]⟩) (.ok ⟨[]⟩)
      "/deployLog/p-e".toList).2
    .deployLog "p-e".toList ⟨[⟨"p".toList, [⟨"e".toList⟩]⟩]⟩ (by decide) rfl
    (fun _ _ _ => rfl) "p-e".toList ⟨"e".toList⟩ "p".toList

/-- C9: when fetching the authenticated user fails, the handler writes a 401
response but does not return — it continues with the Go zero-value user,
filters the projects against it, and still calls the wrapped function when
environment resolution succeeds. -/
theorem deploylog_auth_error_continues (ac : AccessControl) (conf : GConfig)
    (e : String) (path : List Char) (kind : PathKind) (rest : List Char)
    (hm : matchPathWithEnv path = some (kind, rest)) :
    extractDeployLogHandler ac (.ok conf) (.error e) path =
      HAction.httpError 401 e ::
        (match environmentFromName (readableProjects ac conf.projects zeroUser)
            (projectNameOf kind rest) (envNameOf rest) with
          | none => [HAction.httpError 500 envNotFoundMsg]
          | some env => [HAction.callFn rest env (projectNameOf kind rest)]) := by
  rw [handler_ok ac conf (.error e) path kind rest hm]
  rfl

/-- Witness for C9: user retrieval fails with "no session" but the project
`p` resolves, so the handler emits the 401 and then still calls the wrapped
function. -/
theorem deploylog_auth_error_continues_witness :
    extractDeployLogHandler (fun _ _ => true)
        (.ok ⟨[⟨"p".toList, [⟨"e".toList⟩]⟩]⟩) (.error "no session")
        "/deployLog/p-e".toList =
      [HAction.httpError 401 "no session",
       HAction.callFn "p-e".toList ⟨"e".toList⟩ "p".toList] := by
  rw [deploylog_auth_error_continues (fun _ _ => true)
    ⟨[⟨"p".toList, [⟨"e".toList⟩]⟩]⟩ "no session" "/deployLog/p-e".toList
    .deployLog "p-e".toList (by decide)]
  rfl

/-! ## Startup (C10) -/

/-- C10: `newGithubClient` errors exactly when `GITHUB_API_TOKEN` is unset or
empty; `main` then panics during startup, so the process never reaches
serving without a token, whether or not authentication is enabled. -/
theorem github_token_required_at_startup :
    (∀ v : Option String,
      (∃ m, newGithubClient v = Except.error m) ↔ (v = none ∨ v = some ""))
    ∧ (∀ (v : Option String) (authEnabled : Bool), (v = none ∨ v = some "") →
        mainStartup v authEnabled =
          .panicked ("Failed to build github client: " ++
            "environment variable GITHUB_API_TOKEN not defined"))
    ∧ (∀ (v : Option String) (authEnabled : Bool) (gcl : GithubClient)
        (ae : Bool), mainStartup v authEnabled = .serving gcl ae →
        osGetenv v ≠ "") := by
  refine ⟨?_, ?_, ?_⟩
  · intro v
    constructor
    · rintro ⟨m, hm⟩
      cases v with
      | none => exact Or.inl rfl
      | some s =>
          by_cases hs : s = ""
          · exact Or.inr (by rw [hs])
          · simp [newGithubClient, osGetenv, hs] at hm
    · rintro (rfl | rfl) <;> exact ⟨_, rfl⟩
  · rintro v authEnabled (rfl | rfl) <;> rfl
  · intro v authEnabled gcl ae h hv
    simp [mainStartup, newGithubClient, osGetenv, hv] at h
    cases v with
    | none => simp [osGetenv] at hv h
    | some s => simp [osGetenv] at hv; simp [hv] at h

/-- Witness for C10: with the token variable unset and authentication
disabled, startup panics. -/
theorem github_token_required_at_startup_witness :
    mainStartup none false =
      .panicked ("Failed to build github client: " ++
        "environment variable GITHUB_API_TOKEN not defined") :=
  github_token_required_at_startup.2.1 none false (Or.inl rfl)

/-! ## Output-path splitting (C7) and deployLog name splitting (C8) -/

/-- C7 counterexample: `<rest> = "a\nb/c"` contains a `/`, yet because Go's
`.` does not match a newline, `^/(output)/(.*)/(.*)$` rejects the path and the
handler answers 404 instead of passing the last-slash split to the wrapped
function. -/
theorem output_path_claim_counterexample :
    ('/' ∈ "a\nb/c".toList)
    ∧ extractOutputHandler "/output/a\nb/c".toList = .notFound
    ∧ extractOutputHandler "/output/a\nb/c".toList
        ≠ .callFn "a\nb".toList "c".toList := by
  refine ⟨by decide, by decide, by decide⟩

/-- C7 (amended: `<rest>` must also be newline-free, since `.` in a Go regex
does not match a newline): a path `/output/<env>/<ts>` with no `/` in `<ts>`
and no newline hands the wrapped function exactly `(env, ts)` — the split at
the last `/`; a `/output/<rest>` path whose `<rest>` has no `/` or has a
newline gets 404; and a delivered timestamp never contains `/`. -/
theorem output_path_last_slash_split :
    (∀ env ts : List Char, '/' ∉ ts → '\n' ∉ env → '\n' ∉ ts →
      extractOutputHandler ("/output/".toList ++ (env ++ '/' :: ts)) =
        .callFn env ts)
    ∧ (∀ rest : List Char, '/' ∉ rest ∨ '\n' ∈ rest →
        extractOutputHandler ("/output/".toList ++ rest) = .notFound)
    ∧ (∀ path env ts : List Char,
        extractOutputHandler path = .callFn env ts → '/' ∉ ts) := by
  refine ⟨?_, ?_, ?_⟩
  · intro env ts hts henv htsn
    have hmem : ¬ ('\n' ∈ env ++ '/' :: ts) := by
      intro hmem
      rcases List.mem_append.mp hmem with h1 | h2
      · exact henv h1
      · rcases List.mem_cons.mp h2 with h3 | h4
        · exact absurd h3 (by decide)
        · exact htsn h4
    have hc : (env ++ '/' :: ts).contains '\n' = false :=
      (contains_eq_false_iff _ _).mpr hmem
    unfold extractOutputHandler
    rw [matchOutputPath_append, hc, splitAtLast_concat '/' env ts hts]
    rfl
  · intro rest hrest
    unfold extractOutputHandler
    rw [matchOutputPath_append]
    rcases hrest with hns | hnl
    · by_cases hc : rest.contains '\n'
      · rw [hc]
        rfl
      · rw [Bool.not_eq_true] at hc
        rw [hc, (splitAtLast_eq_none '/' rest).mpr hns]
        rfl
    · have hc : rest.contains '\n' = true := List.elem_iff.mpr hnl
      rw [hc]
      rfl
  · intro path env ts h
    unfold extractOutputHandler at h
    cases hm : matchOutputPath path with
    | none => rw [hm] at h; cases h
    | some p =>
        obtain ⟨e, t⟩ := p
        rw [hm] at h
        cases h
        unfold matchOutputPath at hm
        cases hd : dropPfx "/output/".toList path with
        | none => rw [hd] at hm; cases hm
        | some rest =>
            simp only [hd] at hm
            by_cases hnl : rest.contains '\n'
            · rw [if_pos hnl] at hm; cases hm
            · rw [if_neg hnl] at hm
              exact splitAtLast_snd_not_mem '/' rest _ _ hm

/-- Witness for the amended C7: `/output/staging/123` splits into environment
`staging` and timestamp `123`. -/
theorem output_path_last_slash_split_witness :
    extractOutputHandler ("/output/".toList ++ ("staging".toList ++ '/' :: "123".toList)) =
      .callFn "staging".toList "123".toList :=
  output_path_last_slash_split.1 "staging".toList "123".toList (by decide)
    (by decide) (by decide)

/-- C8 counterexample: `s = "a\n-b"` contains a `-`, yet `/deployLog/a\n-b`
fails the route regex (Go's `.` does not match a newline) and yields no names
at all, rather than project `"a\n"` and environment `"b"`. -/
theorem deploylog_name_split_counterexample :
    ('-' ∈ "a\n-b".toList)
    ∧ deployLogParsedNames "/deployLog/a\n-b".toList = none
    ∧ deployLogParsedNames "/deployLog/a\n-b".toList
        ≠ some ("a\n".toList, "b".toList) := by
  refine ⟨by decide, by decide, by decide⟩

/-- C8 (amended: `s` must also be newline-free, since a newline makes the
route regex fail with 404): for newline-free names, `/deployLog/<p>-<e>` with
no `-` in `<e>` parses to project `p` (everything before the last `-`) and
environment `e` (everything after it); a dash-free `s` parses to an empty
project name and environment `s`; `/commits/<s>` keeps all of `s` as the
project name while the environment is still the last `-`-separated segment;
and every name part containing a newline fails the route regex, yields no
names, and makes the handler answer 404. -/
theorem deploylog_name_split_last_dash :
    (∀ p e : List Char, '\n' ∉ p → '\n' ∉ e → '-' ∉ e →
      deployLogParsedNames ("/deployLog/".toList ++ (p ++ '-' :: e)) =
        some (p, e))
    ∧ (∀ s : List Char, '\n' ∉ s → '-' ∉ s →
        deployLogParsedNames ("/deployLog/".toList ++ s) = some ([], s))
    ∧ (∀ p e : List Char, '\n' ∉ p → '\n' ∉ e → '-' ∉ e →
        deployLogParsedNames ("/commits/".toList ++ (p ++ '-' :: e)) =
          some (p ++ '-' :: e, e))
    ∧ (∀ s : List Char, '\n' ∉ s → '-' ∉ s →
        deployLogParsedNames ("/commits/".toList ++ s) = some (s, s))
    ∧ (∀ s : List Char, '\n' ∈ s →
        matchPathWithEnv ("/deployLog/".toList ++ s) = none
        ∧ matchPathWithEnv ("/commits/".toList ++ s) = none
        ∧ deployLogParsedNames ("/deployLog/".toList ++ s) = none
        ∧ deployLogParsedNames ("/commits/".toList ++ s) = none
        ∧ ∀ (ac : AccessControl) (pr : Except String GConfig)
            (cu : Except String GUser),
            extractDeployLogHandler ac pr cu ("/deployLog/".toList ++ s) =
                [HAction.notFound]
            ∧ extractDeployLogHandler ac pr cu ("/commits/".toList ++ s) =
                [HAction.notFound]) := by
  have hnomem : ∀ p e : List Char, '\n' ∉ p → '\n' ∉ e →
      ¬ ('\n' ∈ p ++ '-' :: e) := by
    intro p e hp he hmem
    rcases List.mem_append.mp hmem with h1 | h2
    · exact hp h1
    · rcases List.mem_cons.mp h2 with h3 | h4
      · exact absurd h3 (by decide)
      · exact he h4
  refine ⟨?_, ?_, ?_, ?_, ?_⟩
  · intro p e hp he hde
    have hc : (p ++ '-' :: e).contains '\n' = false :=
      (contains_eq_false_iff _ _).mpr (hnomem p e hp he)
    unfold deployLogParsedNames
    rw [matchPathWithEnv_deployLog, hc]
    have hn := names_of_dash p e hde
    simp [hn.1, hn.2]
  · intro s hs hds
    have hc : s.contains '\n' = false := (contains_eq_false_iff _ _).mpr hs
    unfold deployLogParsedNames
    rw [matchPathWithEnv_deployLog, hc]
    have hn := names_of_nodash s hds
    simp [hn.1, hn.2]
  · intro p e hp he hde
    have hc : (p ++ '-' :: e).contains '\n' = false :=
      (contains_eq_false_iff _ _).mpr (hnomem p e hp he)
    unfold deployLogParsedNames
    rw [matchPathWithEnv_commits, hc]
    have hn := names_of_dash p e hde
    simp [hn.1, projectNameOf]
  · intro s hs hds
    have hc : s.contains '\n' = false := (contains_eq_false_iff _ _).mpr hs
    unfold deployLogParsedNames
    rw [matchPathWithEnv_commits, hc]
    have hn := names_of_nodash s hds
    simp [hn.1, projectNameOf]
  · intro s hnl
    have hc : s.contains '\n' = true := List.elem_iff.mpr hnl
    have h1 : matchPathWithEnv ("/deployLog/".toList ++ s) = none := by
      rw [matchPathWithEnv_deployLog, hc]
      rfl
    have h2 : matchPathWithEnv ("/commits/".toList ++ s) = none := by
      rw [matchPathWithEnv_commits, hc]
      rfl
    refine ⟨h1, h2, ?_, ?_, ?_⟩
    · unfold deployLogParsedNames
      rw [h1]
    · unfold deployLogParsedNames
      rw [h2]
    · intro ac pr cu
      exact ⟨handler_no_match ac pr cu _ h1, handler_no_match ac pr cu _ h2⟩

/-- Witness for the amended C8: `/deployLog/my-app-staging` parses to project
`my-app` and environment `staging`. -/
theorem deploylog_name_split_last_dash_witness :
    deployLogParsedNames ("/deployLog/".toList ++
        ("my-app".toList ++ '-' :: "staging".toList)) =
      some ("my-app".toList, "staging".toList) :=
  deploylog_name_split_last_dash.1 "my-app".toList "staging".toList
    (by decide) (by decide) (by decide)

end Goship
